import Mathlib

/-!
Verification of the `indexed` package: a stable in-place `Partition` of an
indexed collection by a selection rule, and `SortUnique`, which sorts a
collection and compacts duplicate runs.

The collection is modelled as a `List α`; the `Swap(i, j)` capability of the
Go `Swapper` interface becomes `swapList`, and the value-level selection
predicate `keep` (resp. the ordering `lt`) is queried at an index through the
current arrangement, exactly as the slice adapters do.  Each operation
additionally records the trace of `Swap` calls and of predicate/comparison
queries it issues, so that the complexity and safety properties can be stated
about the actual calls made.
-/

namespace Indexed

variable {α : Type*}

/-- The query `keep(i)` evaluated against the current arrangement `l`: the slice
adapters apply the value predicate to the element currently at index `i`.
Out of range (never reached by the engine) yields `false`. -/
def keepAt (keep : α → Bool) (l : List α) (i : Nat) : Bool :=
  match l[i]? with
  | some a => keep a
  | none => false

/-- The capability `Swap(i, j)` on the collection: exchange the elements at `i` and `j`.
If either index is out of range the list is returned unchanged (the engine
never issues such a call). -/
def swapList (l : List α) (i j : Nat) : List α :=
  match l[i]?, l[j]? with
  | some a, some b => (l.set i b).set j a
  | _, _ => l

/-- Result of the partition engine: the returned split index, the final
arrangement, the `Swap` calls made (in order), and the indices passed to the
`keep` predicate (in order). -/
structure PartResult (α : Type*) where
  split : Nat
  coll : List α
  swaps : List (Nat × Nat)
  queries : List Nat

/-- First phase of `Partition`: `i := 0; for i < n && keep(i) { i++ }`.
Returns the final left cursor together with the indices queried. -/
def scanKept (keep : α → Bool) (n : Nat) (l : List α) (i : Nat) : Nat × List Nat :=
  if _h : i < n then
    if keepAt keep l i then
      let r := scanKept keep n l (i + 1)
      (r.1, i :: r.2)
    else (i, [i])
  else (i, [])
termination_by n - i

/-- Main loop of `Partition` (`for i < n && j < n { for !keep(j) { j++; if
j == n return i }; Swap(i, j); i++; j++ }`), merged into one recursion on the
right cursor: while both cursors are in range, query `keep(j)`; on success
swap `i` with `j` and advance both cursors, on failure advance `j`. -/
def partLoop (keep : α → Bool) (n : Nat) (l : List α) (i j : Nat) : PartResult α :=
  if _h : i < n ∧ j < n then
    if keepAt keep l j then
      let r := partLoop keep n (swapList l i j) (i + 1) (j + 1)
      { r with swaps := (i, j) :: r.swaps, queries := j :: r.queries }
    else
      let r := partLoop keep n l i (j + 1)
      { r with queries := j :: r.queries }
  else
    { split := i, coll := l, swaps := [], queries := [] }
termination_by n - j

/-- The engine `Partition(v, keep)`: scan the kept prefix, then run the two-cursor loop
with the right cursor starting one past the left cursor. -/
def Partition (keep : α → Bool) (l : List α) : PartResult α :=
  let n := l.length
  let s := scanKept keep n l 0
  let r := partLoop keep n l s.1 (s.1 + 1)
  { r with queries := s.2 ++ r.queries }

/-- Fuel-indexed mirror of `partLoop`: one unit of fuel is consumed per loop
iteration, and `none` is returned if fuel runs out.  Used to state the
termination argument: `n - j` (the unscanned suffix length) strictly
decreases, so `n - j < fuel` iterations always suffice. -/
def partLoopFuel (keep : α → Bool) (n : Nat) :
    Nat → List α → Nat → Nat → Option (PartResult α)
  | 0, _, _, _ => none
  | fuel + 1, l, i, j =>
    if i < n ∧ j < n then
      if keepAt keep l j then
        (partLoopFuel keep n fuel (swapList l i j) (i + 1) (j + 1)).map
          (fun r => { r with swaps := (i, j) :: r.swaps, queries := j :: r.queries })
      else
        (partLoopFuel keep n fuel l i (j + 1)).map
          (fun r => { r with queries := j :: r.queries })
    else some { split := i, coll := l, swaps := [], queries := [] }

/-- Result of the dedup scan of `SortUnique`: the final left cursor, the
final arrangement, the `Swap` calls and the index pairs passed to `Less`. -/
structure DedupResult (α : Type*) where
  split : Nat
  coll : List α
  swaps : List (Nat × Nat)
  queries : List (Nat × Nat)

/-- The comparison `Less(i, j)` evaluated against the current arrangement, value-wise, as
the slice adapters do. -/
def ltAt (lt : α → α → Bool) (l : List α) (i j : Nat) : Bool :=
  match l[i]?, l[j]? with
  | some a, some b => lt a b
  | _, _ => false

/-- Dedup scan of `SortUnique`: `i, j := 0, 1; for j < n { if Less(i, j)
{ i++; if i != j { Swap(i, j) } }; j++ }`. -/
def dedupLoop (lt : α → α → Bool) (n : Nat) (l : List α) (i j : Nat) : DedupResult α :=
  if _h : j < n then
    if ltAt lt l i j then
      if i + 1 = j then
        let r := dedupLoop lt n l (i + 1) (j + 1)
        { r with queries := (i, j) :: r.queries }
      else
        let r := dedupLoop lt n (swapList l (i + 1) j) (i + 1) (j + 1)
        { r with swaps := (i + 1, j) :: r.swaps, queries := (i, j) :: r.queries }
    else
      let r := dedupLoop lt n l i (j + 1)
      { r with queries := (i, j) :: r.queries }
  else
    { split := i, coll := l, swaps := [], queries := [] }
termination_by n - j

/-- The external sort primitive (`sort.Sort`), whose algorithm the package
does not fix: modelled as a correct comparison sort, sorting ascending with
respect to `lt`, i.e. by the derived non-strict relation. -/
def sortModel (lt : α → α → Bool) (l : List α) : List α :=
  l.insertionSort (fun a b => lt b a = false)

/-- The composer `SortUnique(s)`: return `0` for an empty collection without sorting;
otherwise sort, run the dedup scan from `(0, 1)`, and return the final left
cursor plus one. -/
def SortUnique (lt : α → α → Bool) (l : List α) : Nat × DedupResult α :=
  if l.length = 0 then
    (0, { split := 0, coll := l, swaps := [], queries := [] })
  else
    let s := sortModel lt l
    let r := dedupLoop lt s.length s 0 1
    (r.split + 1, r)

/-- Fuel-indexed mirror of `scanKept`, used to evaluate the engine and to
express its termination. -/
def scanKeptFuel (keep : α → Bool) (n : Nat) :
    Nat → List α → Nat → Option (Nat × List Nat)
  | 0, _, _ => none
  | fuel + 1, l, i =>
    if i < n then
      if keepAt keep l i then
        (scanKeptFuel keep n fuel l (i + 1)).map (fun r => (r.1, i :: r.2))
      else some (i, [i])
    else some (i, [])

/-- Fuel-indexed mirror of `dedupLoop`, used to evaluate the scan and to
express its termination. -/
def dedupLoopFuel (lt : α → α → Bool) (n : Nat) :
    Nat → List α → Nat → Nat → Option (DedupResult α)
  | 0, _, _, _ => none
  | fuel + 1, l, i, j =>
    if j < n then
      if ltAt lt l i j then
        if i + 1 = j then
          (dedupLoopFuel lt n fuel l (i + 1) (j + 1)).map
            (fun r => { r with queries := (i, j) :: r.queries })
        else
          (dedupLoopFuel lt n fuel (swapList l (i + 1) j) (i + 1) (j + 1)).map
            (fun r => { r with swaps := (i + 1, j) :: r.swaps,
                               queries := (i, j) :: r.queries })
      else
        (dedupLoopFuel lt n fuel l i (j + 1)).map
          (fun r => { r with queries := (i, j) :: r.queries })
    else some { split := i, coll := l, swaps := [], queries := [] }

/-- Two values are equivalent under a strict weak order `lt` when neither
precedes the other. -/
def eqv (lt : α → α → Bool) (a b : α) : Prop :=
  lt a b = false ∧ lt b a = false

/-- One step of the reference count of distinct values: add `a` to the
representative list unless some representative is already equivalent to it. -/
def addRep (lt : α → α → Bool) (reps : List α) (a : α) : List α :=
  if reps.any (fun b => !lt a b && !lt b a) then reps else a :: reps

/-- Reference list of one representative per distinct value of `l`. -/
def repList (lt : α → α → Bool) (l : List α) : List α :=
  l.foldl (addRep lt) []

/-- The number of distinct values of `l` under the strict weak order `lt`
(stated from the specification's notion of "distinct values present in the
input"). -/
def distinctCount (lt : α → α → Bool) (l : List α) : Nat :=
  (repList lt l).length

/-! ### Basic lemmas about the capability model -/

theorem keepAt_eq (keep : α → Bool) (l : List α) (i : Nat) (a : α)
    (h : l[i]? = some a) : keepAt keep l i = keep a := by
  unfold keepAt
  rw [h]

theorem ltAt_eq (lt : α → α → Bool) (l : List α) (i j : Nat) (a b : α)
    (hi : l[i]? = some a) (hj : l[j]? = some b) : ltAt lt l i j = lt a b := by
  unfold ltAt
  rw [hi, hj]

theorem swapList_eq_set (l : List α) (i j : Nat) (a b : α)
    (ha : l[i]? = some a) (hb : l[j]? = some b) :
    swapList l i j = (l.set i b).set j a := by
  unfold swapList
  rw [ha, hb]

theorem length_swapList (l : List α) (i j : Nat) :
    (swapList l i j).length = l.length := by
  unfold swapList
  split
  · simp
  · rfl

theorem getElem?_swapList_left (l : List α) {i j : Nat} (hij : i < j)
    (hj : j < l.length) : (swapList l i j)[i]? = l[j]? := by
  have hi : i < l.length := hij.trans hj
  obtain ⟨a, ha⟩ : ∃ a, l[i]? = some a := ⟨_, List.getElem?_eq_getElem hi⟩
  obtain ⟨b, hb⟩ : ∃ b, l[j]? = some b := ⟨_, List.getElem?_eq_getElem hj⟩
  rw [swapList_eq_set l i j a b ha hb,
    List.getElem?_set_ne (Ne.symm (Nat.ne_of_lt hij)),
    List.getElem?_set_self (by simpa using hi), hb]

theorem getElem?_swapList_right (l : List α) {i j : Nat} (hij : i < j)
    (hj : j < l.length) : (swapList l i j)[j]? = l[i]? := by
  have hi : i < l.length := hij.trans hj
  obtain ⟨a, ha⟩ : ∃ a, l[i]? = some a := ⟨_, List.getElem?_eq_getElem hi⟩
  obtain ⟨b, hb⟩ : ∃ b, l[j]? = some b := ⟨_, List.getElem?_eq_getElem hj⟩
  rw [swapList_eq_set l i j a b ha hb,
    List.getElem?_set_self (by simpa using hj), ha]

theorem getElem?_swapList_other (l : List α) {i j k : Nat}
    (hki : k ≠ i) (hkj : k ≠ j) : (swapList l i j)[k]? = l[k]? := by
  unfold swapList
  split
  · rw [List.getElem?_set_ne (Ne.symm hkj), List.getElem?_set_ne (Ne.symm hki)]
  · rfl

theorem set_append_add (A : List α) (L : List α) (k : Nat) (c : α) :
    (A ++ L).set (A.length + k) c = A ++ L.set k c := by
  induction A with
  | nil => simp
  | cons x A ih => simp [List.set, Nat.succ_add, ih]

theorem getElem?_append_add (A L : List α) (k : Nat) :
    (A ++ L)[A.length + k]? = L[k]? := by
  induction A with
  | nil => simp
  | cons x A ih => simpa [Nat.succ_add] using ih

theorem swapList_cons (x : α) (l : List α) (i j : Nat) :
    swapList (x :: l) (i + 1) (j + 1) = x :: swapList l i j := by
  unfold swapList
  simp only [List.getElem?_cons_succ]
  cases hli : l[i]? with
  | none => rfl
  | some a =>
    cases hlj : l[j]? with
    | none => rfl
    | some b => rfl

/-- Exchanging the two distinguished elements of a decomposed list. -/
theorem swapList_decomp (A B C : List α) (a b : α) :
    swapList (A ++ (a :: (B ++ (b :: C)))) A.length (A.length + B.length + 1) =
      A ++ (b :: (B ++ (a :: C))) := by
  induction A with
  | nil =>
    show swapList (a :: (B ++ (b :: C))) 0 (0 + B.length + 1) =
      b :: (B ++ (a :: C))
    have hz : 0 + B.length + 1 = B.length + 1 := by omega
    rw [hz]
    have ha : (a :: (B ++ (b :: C)))[0]? = some a := by simp
    have hb : (a :: (B ++ (b :: C)))[B.length + 1]? = some b := by
      rw [List.getElem?_cons_succ]
      have := getElem?_append_add B (b :: C) 0
      simpa using this
    rw [swapList_eq_set _ _ _ a b ha hb]
    show b :: (B ++ (b :: C)).set B.length a = b :: (B ++ (a :: C))
    have := set_append_add B (b :: C) 0 a
    simpa using this
  | cons x A ih =>
    show swapList (x :: (A ++ (a :: (B ++ (b :: C))))) (A.length + 1)
        (A.length + 1 + B.length + 1) = x :: (A ++ (b :: (B ++ (a :: C))))
    have harith : A.length + 1 + B.length + 1 = (A.length + B.length + 1) + 1 := by
      omega
    rw [harith, swapList_cons, ih]

/-- Any in-range swap with `i < j` arises from a decomposition of the list. -/
theorem exists_swap_decomp (l : List α) {i j : Nat} (hij : i < j)
    (hj : j < l.length) :
    ∃ A B C a b, l = A ++ (a :: (B ++ (b :: C))) ∧ A.length = i ∧
      A.length + B.length + 1 = j := by
  have hi : i < l.length := hij.trans hj
  have hjD : j - i - 1 < (l.drop (i + 1)).length := by
    rw [List.length_drop]
    omega
  refine ⟨l.take i, (l.drop (i + 1)).take (j - i - 1),
    (l.drop (i + 1)).drop (j - i), l[i], (l.drop (i + 1))[j - i - 1],
    ?_, ?_, ?_⟩
  · have harith : j - i - 1 + 1 = j - i := by omega
    calc l = l.take i ++ l.drop i := (List.take_append_drop i l).symm
      _ = l.take i ++ (l[i] :: l.drop (i + 1)) := by
          rw [List.drop_eq_getElem_cons hi]
      _ = l.take i ++ (l[i] :: ((l.drop (i + 1)).take (j - i - 1) ++
            (l.drop (i + 1)).drop (j - i - 1))) := by
          rw [List.take_append_drop]
      _ = l.take i ++ (l[i] :: ((l.drop (i + 1)).take (j - i - 1) ++
            ((l.drop (i + 1))[j - i - 1] :: (l.drop (i + 1)).drop (j - i)))) := by
          rw [List.drop_eq_getElem_cons hjD, harith]
  · rw [List.length_take]
    omega
  · rw [List.length_take, List.length_take, List.length_drop]
    omega

theorem getElem?_decomp_left (A : List α) (a : α) (X : List α) :
    (A ++ (a :: X))[A.length]? = some a := by
  have := getElem?_append_add A (a :: X) 0
  simpa using this

theorem getElem?_decomp_right (A B C : List α) (a b : α) :
    (A ++ (a :: (B ++ (b :: C))))[A.length + B.length + 1]? = some b := by
  have h1 : A.length + B.length + 1 = A.length + (B.length + 1) := by omega
  rw [h1, getElem?_append_add A, List.getElem?_cons_succ]
  have := getElem?_append_add B (b :: C) 0
  simpa using this

theorem getElem?_decomp_mid (A B : List α) (a : α) (X : List α) (m : Nat)
    (hm : m < B.length) :
    (A ++ (a :: (B ++ X)))[A.length + 1 + m]? = B[m]? := by
  have h1 : A.length + 1 + m = A.length + (m + 1) := by omega
  rw [h1, getElem?_append_add A, List.getElem?_cons_succ,
    List.getElem?_append_left hm]

theorem swapList_perm (l : List α) {i j : Nat} (hij : i < j)
    (hj : j < l.length) : (swapList l i j).Perm l := by
  obtain ⟨A, B, C, a, b, hl, hA, hAB⟩ := exists_swap_decomp l hij hj
  rw [hl, ← hA, ← hAB, swapList_decomp]
  refine List.Perm.append_left A ?_
  refine List.Perm.trans (List.Perm.cons b List.perm_middle) ?_
  refine List.Perm.trans (List.Perm.swap a b (B ++ C)) ?_
  exact List.Perm.cons a List.perm_middle.symm

theorem keepAt_congr (keep : α → Bool) {l₁ l₂ : List α} {i j : Nat}
    (h : l₁[i]? = l₂[j]?) : keepAt keep l₁ i = keepAt keep l₂ j := by
  unfold keepAt
  rw [h]

/-- The swap performed by the engine — an unkept element at `i`, a kept
element at `j`, only unkept elements strictly between — does not change the
subsequence of kept elements. -/
theorem filter_swapList (keep : α → Bool) (l : List α) {i j : Nat}
    (hij : i < j) (hj : j < l.length)
    (hki : keepAt keep l i = false) (hkj : keepAt keep l j = true)
    (hmid : ∀ k, i < k → k < j → keepAt keep l k = false) :
    (swapList l i j).filter keep = l.filter keep := by
  obtain ⟨A, B, C, a, b, hl, hA, hAB⟩ := exists_swap_decomp l hij hj
  subst hA
  subst hAB
  subst hl
  have ha : (A ++ (a :: (B ++ (b :: C))))[A.length]? = some a :=
    getElem?_decomp_left A a (B ++ (b :: C))
  have hb := getElem?_decomp_right A B C a b
  rw [keepAt_eq _ _ _ a ha] at hki
  rw [keepAt_eq _ _ _ b hb] at hkj
  have hBnil : B.filter keep = [] := by
    rw [List.filter_eq_nil_iff]
    intro x hx
    obtain ⟨m, hm, hBm⟩ := List.getElem_of_mem hx
    have hx? : (A ++ (a :: (B ++ (b :: C))))[A.length + 1 + m]? = some x := by
      rw [getElem?_decomp_mid A B a (b :: C) m hm, List.getElem?_eq_getElem hm,
        hBm]
    have := hmid (A.length + 1 + m) (by omega) (by omega)
    rw [keepAt_eq _ _ _ x hx?] at this
    simp [this]
  rw [swapList_decomp]
  simp [List.filter_append, List.filter_cons, hki, hkj, hBnil]

/-- First-phase scan: starting from a fully kept prefix `[0, i)`, the scan
returns the left cursor at the end of the maximal kept prefix, with all
queried indices in range. -/
theorem scanKept_spec (keep : α → Bool) (n : Nat) (l : List α)
    (hn : l.length = n) :
    ∀ i, i ≤ n → (∀ k, k < i → keepAt keep l k = true) →
      i ≤ (scanKept keep n l i).1 ∧ (scanKept keep n l i).1 ≤ n ∧
      (∀ k, k < (scanKept keep n l i).1 → keepAt keep l k = true) ∧
      ((scanKept keep n l i).1 < n →
        keepAt keep l (scanKept keep n l i).1 = false) ∧
      (∀ q ∈ (scanKept keep n l i).2, q < n) := by
  intro i
  induction i using scanKept.induct keep n l with
  | case1 i hi hk ih =>
    intro _hin hpre
    rw [scanKept]
    simp only [dif_pos hi, if_pos hk]
    have hpre' : ∀ k, k < i + 1 → keepAt keep l k = true := by
      intro k hk'
      rcases Nat.lt_or_ge k i with h | h
      · exact hpre k h
      · have : k = i := by omega
        subst this
        exact hk
    obtain ⟨h1, h2, h3, h4, h5⟩ := ih hi hpre'
    refine ⟨by omega, h2, h3, h4, ?_⟩
    intro q hq
    rcases List.mem_cons.1 hq with h | h
    · subst h; exact hi
    · exact h5 q h
  | case2 i hi hk =>
    intro _hin hpre
    rw [scanKept]
    simp only [dif_pos hi, if_neg hk]
    refine ⟨Nat.le_refl i, Nat.le_of_lt hi, hpre, fun _ => ?_, ?_⟩
    · simpa using hk
    · intro q hq
      simp only [List.mem_singleton] at hq
      subst hq
      exact hi
  | case3 i hi =>
    intro hin hpre
    rw [scanKept]
    simp only [dif_neg hi]
    exact ⟨Nat.le_refl i, hin, hpre, fun h => absurd h hi, by simp⟩

/-- Main loop invariant of the partition engine.  Starting from a state in
which `[0, i)` is kept, `[i, j)` is unkept and `i < j`, the loop returns a
split `p` with `i ≤ p ≤ n` such that the result is a permutation of the
original collection with the kept subsequence unchanged, `[0, p)` kept,
`[p, n)` unkept; it performs exactly `p - i` swaps, every swap `(a, b)` has
`a < b < n`, every queried index is `< n`, and the final arrangement is the
input with exactly the recorded swaps applied in order. -/
theorem partLoop_spec (keep : α → Bool) (n : Nat) (l₀ : List α) :
    ∀ (l : List α) (i j : Nat),
      l.length = n → i ≤ n → i < j →
      (∀ k, k < i → keepAt keep l k = true) →
      (∀ k, i ≤ k → k < j → k < n → keepAt keep l k = false) →
      l.filter keep = l₀.filter keep → l.Perm l₀ →
      i ≤ (partLoop keep n l i j).split ∧
      (partLoop keep n l i j).split ≤ n ∧
      (partLoop keep n l i j).coll.length = n ∧
      (partLoop keep n l i j).coll.Perm l₀ ∧
      (partLoop keep n l i j).coll.filter keep = l₀.filter keep ∧
      (∀ k, k < (partLoop keep n l i j).split →
        keepAt keep (partLoop keep n l i j).coll k = true) ∧
      (∀ k, (partLoop keep n l i j).split ≤ k → k < n →
        keepAt keep (partLoop keep n l i j).coll k = false) ∧
      (partLoop keep n l i j).swaps.length + i = (partLoop keep n l i j).split ∧
      (∀ p ∈ (partLoop keep n l i j).swaps, p.1 < p.2 ∧ p.2 < n) ∧
      (∀ q ∈ (partLoop keep n l i j).queries, q < n) ∧
      (partLoop keep n l i j).coll =
        (partLoop keep n l i j).swaps.foldl (fun m p => swapList m p.1 p.2) l := by
  intro l i j
  induction l, i, j using partLoop.induct keep n with
  | case1 l i j h hkeep ih =>
    intro hlen _hin hij hpre hmid hfil hperm
    have hjl : j < l.length := by rw [hlen]; exact h.2
    have hpre' : ∀ k, k < i + 1 → keepAt keep (swapList l i j) k = true := by
      intro k hk
      rcases Nat.lt_or_ge k i with hki | hki
      · rw [keepAt_congr keep
          (getElem?_swapList_other l (by omega) (by omega))]
        exact hpre k hki
      · have hkeq : k = i := by omega
        subst hkeq
        rw [keepAt_congr keep (getElem?_swapList_left l hij hjl)]
        exact hkeep
    have hmid' : ∀ k, i + 1 ≤ k → k < j + 1 → k < n →
        keepAt keep (swapList l i j) k = false := by
      intro k h1 h2 h3
      rcases Nat.lt_or_ge k j with hkj | hkj
      · rw [keepAt_congr keep
          (getElem?_swapList_other l (by omega) (by omega))]
        exact hmid k (by omega) hkj h3
      · have hkeq : k = j := by omega
        subst hkeq
        rw [keepAt_congr keep (getElem?_swapList_right l hij hjl)]
        exact hmid i (Nat.le_refl i) hij h.1
    have hfil' : (swapList l i j).filter keep = l₀.filter keep := by
      rw [filter_swapList keep l hij hjl
        (hmid i (Nat.le_refl i) hij h.1) hkeep
        (fun k hk1 hk2 => hmid k (by omega) hk2 (by omega))]
      exact hfil
    have hlen' : (swapList l i j).length = n := by
      rw [length_swapList]; exact hlen
    have hperm' := (swapList_perm l hij hjl).trans hperm
    obtain ⟨s1, s2, s3, s4, s5, s6, s7, s8, s9, s10, s11⟩ :=
      ih hlen' (by omega) (by omega) hpre' hmid' hfil' hperm'
    rw [partLoop]
    simp only [dif_pos h, if_pos hkeep]
    refine ⟨by omega, s2, s3, s4, s5, s6, s7, ?_, ?_, ?_, ?_⟩
    · simp only [List.length_cons]
      omega
    · intro p hp
      rcases List.mem_cons.1 hp with hpe | hpe
      · subst hpe
        exact ⟨hij, h.2⟩
      · exact s9 p hpe
    · intro q hq
      rcases List.mem_cons.1 hq with hqe | hqe
      · subst hqe
        exact h.2
      · exact s10 q hqe
    · simp only [List.foldl_cons]
      exact s11
  | case2 l i j h hkeep ih =>
    intro hlen hin hij hpre hmid hfil hperm
    have hmid' : ∀ k, i ≤ k → k < j + 1 → k < n →
        keepAt keep l k = false := by
      intro k h1 h2 h3
      rcases Nat.lt_or_ge k j with hkj | hkj
      · exact hmid k h1 hkj h3
      · have hkeq : k = j := by omega
        subst hkeq
        simpa using hkeep
    obtain ⟨s1, s2, s3, s4, s5, s6, s7, s8, s9, s10, s11⟩ :=
      ih hlen hin (by omega) hpre hmid' hfil hperm
    rw [partLoop]
    simp only [dif_pos h, if_neg hkeep]
    refine ⟨s1, s2, s3, s4, s5, s6, s7, s8, s9, ?_, s11⟩
    intro q hq
    rcases List.mem_cons.1 hq with hqe | hqe
    · subst hqe
      exact h.2
    · exact s10 q hqe
  | case3 l i j h =>
    intro hlen hin hij hpre hmid hfil hperm
    rw [partLoop]
    simp only [dif_neg h]
    refine ⟨Nat.le_refl i, hin, hlen, hperm, hfil, hpre, ?_, by simp, by simp,
      by simp, by simp⟩
    intro k hk1 hk2
    rcases Nat.lt_or_ge i n with hi | hi
    · have hjn : n ≤ j := by
        rcases Nat.lt_or_ge j n with hj | hj
        · exact absurd ⟨hi, hj⟩ h
        · exact hj
      exact hmid k hk1 (by omega) hk2
    · omega

/-! ### Fuel equivalences: the loops terminate within `n - cursor` steps -/

theorem scanKeptFuel_eq_aux (keep : α → Bool) (n : Nat) :
    ∀ (fuel : Nat) (l : List α) (i : Nat), n - i < fuel →
      scanKeptFuel keep n fuel l i = some (scanKept keep n l i) := by
  intro fuel
  induction fuel with
  | zero =>
    intro l i h
    omega
  | succ fuel ih =>
    intro l i h
    rw [scanKept]
    simp only [scanKeptFuel]
    by_cases hi : i < n
    · simp only [dif_pos hi, if_pos hi]
      by_cases hk : keepAt keep l i = true
      · simp only [if_pos hk]
        rw [ih l (i + 1) (by omega), Option.map_some']
      · simp only [if_neg hk]
    · simp only [dif_neg hi, if_neg hi]

theorem partLoopFuel_eq_aux (keep : α → Bool) (n : Nat) :
    ∀ (fuel : Nat) (l : List α) (i j : Nat), n - j < fuel →
      partLoopFuel keep n fuel l i j = some (partLoop keep n l i j) := by
  intro fuel
  induction fuel with
  | zero =>
    intro l i j h
    omega
  | succ fuel ih =>
    intro l i j h
    rw [partLoop]
    simp only [partLoopFuel]
    by_cases hg : i < n ∧ j < n
    · simp only [dif_pos hg, if_pos hg]
      by_cases hk : keepAt keep l j = true
      · simp only [if_pos hk]
        rw [ih (swapList l i j) (i + 1) (j + 1) (by omega), Option.map_some']
      · simp only [if_neg hk]
        rw [ih l i (j + 1) (by omega), Option.map_some']
    · simp only [dif_neg hg, if_neg hg]

theorem dedupLoopFuel_eq_aux (lt : α → α → Bool) (n : Nat) :
    ∀ (fuel : Nat) (l : List α) (i j : Nat), n - j < fuel →
      dedupLoopFuel lt n fuel l i j = some (dedupLoop lt n l i j) := by
  intro fuel
  induction fuel with
  | zero =>
    intro l i j h
    omega
  | succ fuel ih =>
    intro l i j h
    rw [dedupLoop]
    simp only [dedupLoopFuel]
    by_cases hj : j < n
    · simp only [dif_pos hj, if_pos hj]
      by_cases hlt : ltAt lt l i j = true
      · simp only [if_pos hlt]
        by_cases heq : i + 1 = j
        · simp only [if_pos heq]
          rw [ih l (i + 1) (j + 1) (by omega), Option.map_some']
        · simp only [if_neg heq]
          rw [ih (swapList l (i + 1) j) (i + 1) (j + 1) (by omega),
            Option.map_some']
      · simp only [if_neg hlt]
        rw [ih l i (j + 1) (by omega), Option.map_some']
    · simp only [dif_neg hj, if_neg hj]

/-- Evaluation rule for `Partition` through the fuel mirrors. -/
theorem Partition_eval (keep : α → Bool) (l : List α) (s : Nat × List Nat)
    (r : PartResult α)
    (hs : scanKeptFuel keep l.length (l.length + 1) l 0 = some s)
    (hr : partLoopFuel keep l.length (l.length + 1) l s.1 (s.1 + 1) = some r) :
    Partition keep l = { r with queries := s.2 ++ r.queries } := by
  rw [scanKeptFuel_eq_aux keep l.length (l.length + 1) l 0 (by omega)] at hs
  injection hs with hs
  rw [partLoopFuel_eq_aux keep l.length (l.length + 1) l s.1 (s.1 + 1)
    (by omega)] at hr
  injection hr with hr
  simp only [Partition]
  rw [hs, hr]

/-- Evaluation rule for `SortUnique` through the fuel mirror. -/
theorem SortUnique_eval (lt : α → α → Bool) (l : List α) (r : DedupResult α)
    (hne : ¬ l.length = 0)
    (hr : dedupLoopFuel lt (sortModel lt l).length ((sortModel lt l).length + 1)
      (sortModel lt l) 0 1 = some r) :
    SortUnique lt l = (r.split + 1, r) := by
  rw [dedupLoopFuel_eq_aux lt (sortModel lt l).length
    ((sortModel lt l).length + 1) (sortModel lt l) 0 1 (by omega)] at hr
  injection hr with hr
  unfold SortUnique
  rw [if_neg hne]
  simp only [hr]

theorem keepAt_true_iff (keep : α → Bool) (l : List α) (k : Nat) :
    keepAt keep l k = true ↔ ∃ a, l[k]? = some a ∧ keep a = true := by
  unfold keepAt
  cases h : l[k]? <;> simp

theorem keepAt_false_iff (keep : α → Bool) (l : List α) (k : Nat) :
    keepAt keep l k = false ↔ ∀ a, l[k]? = some a → keep a = false := by
  unfold keepAt
  cases h : l[k]? <;> simp

theorem mem_of_getElem?_eq_some {l : List α} {k : Nat} {a : α}
    (h : l[k]? = some a) : a ∈ l := by
  obtain ⟨hk, rfl⟩ := List.getElem?_eq_some.1 h
  exact List.getElem_mem hk

/-- A list whose `[0, p)` positions are all kept and whose remaining
positions are all unkept filters to its own `p`-prefix. -/
theorem filter_eq_take_of_partitioned (keep : α → Bool) (m : List α) (p : Nat)
    (hp : p ≤ m.length)
    (hpre : ∀ k, k < p → keepAt keep m k = true)
    (hsuf : ∀ k, p ≤ k → k < m.length → keepAt keep m k = false) :
    m.filter keep = m.take p := by
  conv_lhs => rw [← List.take_append_drop p m]
  rw [List.filter_append]
  have h1 : (m.take p).filter keep = m.take p := by
    rw [List.filter_eq_self]
    intro a ha
    rw [List.mem_take_iff_getElem] at ha
    obtain ⟨k, hk, hka⟩ := ha
    have hkp : k < p := by omega
    have hsome : m[k]? = some a := by
      rw [List.getElem?_eq_getElem (by omega)]
      exact congrArg some hka
    have := hpre k hkp
    rw [keepAt_eq keep m k a hsome] at this
    exact this
  have h2 : (m.drop p).filter keep = [] := by
    rw [List.filter_eq_nil_iff]
    intro a ha
    rw [List.mem_drop_iff_getElem] at ha
    obtain ⟨k, hk, hka⟩ := ha
    have hsome : m[p + k]? = some a := by
      rw [List.getElem?_eq_getElem (by omega)]
      exact congrArg some hka
    have := hsuf (p + k) (by omega) (by omega)
    rw [keepAt_eq keep m _ a hsome] at this
    simp [this]
  rw [h1, h2, List.append_nil]

/-- Combined specification of `Partition`: bounds of the split index, the
partitioned shape of the result, permutation and kept-subsequence
preservation, the swap count, in-range swaps and queries, and the fact that
the final arrangement is the input with the recorded swaps applied. -/
theorem Partition_spec (keep : α → Bool) (l : List α) :
    (Partition keep l).split ≤ l.length ∧
    (Partition keep l).coll.length = l.length ∧
    (Partition keep l).coll.Perm l ∧
    (Partition keep l).coll.filter keep = l.filter keep ∧
    (∀ k, k < (Partition keep l).split →
      keepAt keep (Partition keep l).coll k = true) ∧
    (∀ k, (Partition keep l).split ≤ k → k < l.length →
      keepAt keep (Partition keep l).coll k = false) ∧
    (Partition keep l).swaps.length + (scanKept keep l.length l 0).1 =
      (Partition keep l).split ∧
    (∀ p ∈ (Partition keep l).swaps, p.1 < p.2 ∧ p.2 < l.length) ∧
    (∀ q ∈ (Partition keep l).queries, q < l.length) ∧
    (Partition keep l).coll =
      (Partition keep l).swaps.foldl (fun m p => swapList m p.1 p.2) l := by
  obtain ⟨c1, c2, c3, c4, c5⟩ := scanKept_spec keep l.length l rfl 0
    (Nat.zero_le _) (by omega)
  obtain ⟨s1, s2, s3, s4, s5, s6, s7, s8, s9, s10, s11⟩ :=
    partLoop_spec keep l.length l l (scanKept keep l.length l 0).1
      ((scanKept keep l.length l 0).1 + 1) rfl c2 (by omega) c3
      (by
        intro k hk1 hk2 hk3
        have hkeq : k = (scanKept keep l.length l 0).1 := by omega
        subst hkeq
        exact c4 hk3)
      rfl (List.Perm.refl l)
  unfold Partition
  simp only []
  refine ⟨s2, s3, s4, s5, s6, s7, s8, s9, ?_, s11⟩
  intro q hq
  rcases List.mem_append.1 hq with hqe | hqe
  · exact c5 q hqe
  · exact s10 q hqe

theorem scanKept_eq_length_of_all (keep : α → Bool) (n : Nat) (l : List α)
    (hn : l.length = n) (hall : ∀ x ∈ l, keep x = true) :
    ∀ i, i ≤ n → (scanKept keep n l i).1 = n := by
  intro i
  induction i using scanKept.induct keep n l with
  | case1 i hi _hk ih =>
    intro _hin
    rw [scanKept]
    simp only [dif_pos hi, if_pos _hk]
    exact ih hi
  | case2 i hi hk =>
    intro _hin
    exfalso
    apply hk
    have hil : i < l.length := by omega
    obtain ⟨a, ha⟩ : ∃ a, l[i]? = some a := ⟨_, List.getElem?_eq_getElem hil⟩
    rw [keepAt_eq keep l i a ha]
    exact hall a (mem_of_getElem?_eq_some ha)
  | case3 i hi =>
    intro hin
    rw [scanKept]
    simp only [dif_neg hi]
    omega

theorem scanKept_zero_of_none (keep : α → Bool) (n : Nat) (l : List α)
    (hn : l.length = n) (hall : ∀ x ∈ l, keep x = false) :
    (scanKept keep n l 0).1 = 0 := by
  rw [scanKept]
  by_cases h : 0 < n
  · have hil : 0 < l.length := by omega
    obtain ⟨a, ha⟩ : ∃ a, l[0]? = some a := ⟨_, List.getElem?_eq_getElem hil⟩
    have hk : keepAt keep l 0 = false := by
      rw [keepAt_eq keep l 0 a ha]
      exact hall a (mem_of_getElem?_eq_some ha)
    simp only [dif_pos h, hk]
    simp
  · simp only [dif_neg h]

/-- C1: For every collection of size `n ≥ 0` and every predicate `keep` on
element values, `Partition` returns `p` with `0 ≤ p ≤ n` such that after the
call every element at an index `< p` satisfies `keep` and every element at an
index in `[p, n)` does not. -/
theorem Partition_split_partitions (keep : α → Bool) (l : List α) :
    (Partition keep l).split ≤ l.length ∧
    (∀ i a, i < (Partition keep l).split →
      (Partition keep l).coll[i]? = some a → keep a = true) ∧
    (∀ i a, (Partition keep l).split ≤ i →
      (Partition keep l).coll[i]? = some a → keep a = false) := by
  obtain ⟨h1, h2, _h3, _h4, h5, h6, _⟩ := Partition_spec keep l
  refine ⟨h1, ?_, ?_⟩
  · intro i a hi ha
    have hk := h5 i hi
    rw [keepAt_eq keep _ i a ha] at hk
    exact hk
  · intro i a hi ha
    have hlen : i < (Partition keep l).coll.length := (List.getElem?_eq_some.1 ha).1
    have hk := h6 i hi (by omega)
    rw [keepAt_eq keep _ i a ha] at hk
    exact hk

theorem Partition_split_partitions_witness :
    (Partition (fun b : Bool => b) [false, true]).split ≤ 2 ∧
    ((fun b : Bool => b) true = true) ∧ ((fun b : Bool => b) false = false) := by
  have hP : Partition (fun b : Bool => b) [false, true] =
      { split := 1, coll := [true, false], swaps := [(0, 1)],
        queries := [0, 1] } :=
    Partition_eval (fun b : Bool => b) [false, true] (0, [0])
      { split := 1, coll := [true, false], swaps := [(0, 1)], queries := [1] }
      rfl rfl
  obtain ⟨h1, h2, h3⟩ :=
    Partition_split_partitions (fun b : Bool => b) [false, true]
  refine ⟨h1, ?_, ?_⟩
  · exact h2 0 true (by simp [hP]) (by simp [hP])
  · exact h3 1 false (by simp [hP]) (by simp [hP])

/-- C2: the elements at output positions `[0, p)` after `Partition`, read in
index order, are exactly the kept elements of the input in their original
relative order. -/
theorem Partition_stable_order (keep : α → Bool) (l : List α) :
    (Partition keep l).coll.take (Partition keep l).split = l.filter keep := by
  obtain ⟨h1, h2, _h3, h4, h5, h6, _⟩ := Partition_spec keep l
  have ht := filter_eq_take_of_partitioned keep (Partition keep l).coll
    (Partition keep l).split (by omega) h5 (fun k hk1 hk2 => h6 k hk1 (by omega))
  rw [← ht, h4]

/-- C4: the returned split index equals the number of positions of the
original arrangement whose element satisfies `keep`. -/
theorem Partition_split_eq_countP (keep : α → Bool) (l : List α) :
    (Partition keep l).split = l.countP keep := by
  have htake := Partition_stable_order keep l
  obtain ⟨h1, h2, _⟩ := Partition_spec keep l
  rw [List.countP_eq_length_filter, ← htake, List.length_take]
  omega

/-- C5, counterexample: on `[false, true, true, true]` with `keep` the
identity, `Partition` returns `p = 3` for `n = 4` but performs `3` swaps,
exceeding `min(p, n - p) = 1`. -/
theorem Partition_swaps_not_min_bounded :
    ¬ ((Partition (fun b : Bool => b) [false, true, true, true]).swaps.length ≤
      min (Partition (fun b : Bool => b) [false, true, true, true]).split
        (4 - (Partition (fun b : Bool => b) [false, true, true, true]).split)) := by
  have hP : Partition (fun b : Bool => b) [false, true, true, true] =
      { split := 3, coll := [true, true, true, false],
        swaps := [(0, 1), (1, 2), (2, 3)], queries := [0, 1, 2, 3] } :=
    Partition_eval (fun b : Bool => b) [false, true, true, true] (0, [0])
      { split := 3, coll := [true, true, true, false],
        swaps := [(0, 1), (1, 2), (2, 3)], queries := [1, 2, 3] } rfl rfl
  rw [hP]
  decide

/-- C5, amended: the number of `Swap` calls made by `Partition` is at most
`p`, the returned split index (each kept element is swapped at most once). -/
theorem Partition_swaps_le_split (keep : α → Bool) (l : List α) :
    (Partition keep l).swaps.length ≤ (Partition keep l).split := by
  obtain ⟨_, _, _, _, _, _, h7, _⟩ := Partition_spec keep l
  omega

/-- C6: a predicate true of every element yields `p = n` and no swaps; a
predicate false of every element yields `p = 0` and no swaps; the empty
collection yields `p = 0`. -/
theorem Partition_const_pred (keep : α → Bool) (l : List α) :
    ((∀ x ∈ l, keep x = true) →
      (Partition keep l).split = l.length ∧ (Partition keep l).swaps = []) ∧
    ((∀ x ∈ l, keep x = false) →
      (Partition keep l).split = 0 ∧ (Partition keep l).swaps = []) ∧
    (l = [] → (Partition keep l).split = 0 ∧ (Partition keep l).swaps = []) := by
  obtain ⟨h1, h2, h3, _h4, h5, _h6, h7, _⟩ := Partition_spec keep l
  refine ⟨?_, ?_, ?_⟩
  · intro hall
    have hscan := scanKept_eq_length_of_all keep l.length l rfl hall 0
      (Nat.zero_le _)
    have hsplit : (Partition keep l).split = l.length := by omega
    exact ⟨hsplit, List.eq_nil_of_length_eq_zero (by omega)⟩
  · intro hall
    have hscan := scanKept_zero_of_none keep l.length l rfl hall
    have hsplit0 : (Partition keep l).split = 0 := by
      by_contra hne
      have hpos : 0 < (Partition keep l).split := Nat.pos_of_ne_zero hne
      have hk := h5 0 hpos
      rw [keepAt_true_iff] at hk
      obtain ⟨a, ha, hka⟩ := hk
      have hmem : a ∈ l := h3.mem_iff.1 (mem_of_getElem?_eq_some ha)
      rw [hall a hmem] at hka
      cases hka
    exact ⟨hsplit0, List.eq_nil_of_length_eq_zero (by omega)⟩
  · intro hl
    subst hl
    have hlen : ([] : List α).length = 0 := rfl
    have hsplit0 : (Partition keep ([] : List α)).split = 0 := by omega
    exact ⟨hsplit0, List.eq_nil_of_length_eq_zero (by omega)⟩

theorem Partition_const_pred_witness :
    (Partition (fun b : Bool => b) [true, true]).split = 2 ∧
    (Partition (fun b : Bool => b) [true, true]).swaps = [] ∧
    (Partition (fun b : Bool => b) [false]).split = 0 ∧
    (Partition (fun _ : Bool => true) ([] : List Bool)).split = 0 := by
  obtain ⟨w1, w2⟩ :=
    (Partition_const_pred (fun b : Bool => b) [true, true]).1 (by decide)
  obtain ⟨w3, _⟩ :=
    (Partition_const_pred (fun b : Bool => b) [false]).2.1 (by decide)
  obtain ⟨w4, _⟩ :=
    (Partition_const_pred (fun _ : Bool => true) ([] : List Bool)).2.2 rfl
  exact ⟨w1, w2, w3, w4⟩

theorem length_sortModel (lt : α → α → Bool) (l : List α) :
    (sortModel lt l).length = l.length :=
  List.length_insertionSort _ l

theorem perm_sortModel (lt : α → α → Bool) (l : List α) :
    (sortModel lt l).Perm l :=
  List.perm_insertionSort _ l

/-- Basic state facts about the dedup scan: it preserves length, permutes the
collection, applies exactly its recorded swaps, and every swap `(a, b)` and
every comparison query `(a, b)` satisfies `a < b < n`. -/
theorem dedupLoop_basic (lt : α → α → Bool) (n : Nat) :
    ∀ (l : List α) (i j : Nat), l.length = n → i < j →
      (dedupLoop lt n l i j).coll.length = n ∧
      (dedupLoop lt n l i j).coll.Perm l ∧
      (dedupLoop lt n l i j).coll =
        (dedupLoop lt n l i j).swaps.foldl (fun m p => swapList m p.1 p.2) l ∧
      (∀ p ∈ (dedupLoop lt n l i j).swaps, p.1 < p.2 ∧ p.2 < n) ∧
      (∀ q ∈ (dedupLoop lt n l i j).queries, q.1 < q.2 ∧ q.2 < n) := by
  intro l i j
  induction l, i, j using dedupLoop.induct lt n with
  | case1 l i hj hlt ih =>
    intro hlen hij
    obtain ⟨s1, s2, s3, s4, s5⟩ := ih hlen (by omega)
    rw [dedupLoop]
    simp only [dif_pos hj, if_pos hlt, if_pos rfl]
    refine ⟨s1, s2, s3, s4, ?_⟩
    intro q hq
    rcases List.mem_cons.1 hq with hqe | hqe
    · subst hqe
      exact ⟨hij, hj⟩
    · exact s5 q hqe
  | case2 l i j hj hlt hne ih =>
    intro hlen hij
    have hij' : i + 1 < j := by omega
    have hjl : j < l.length := by omega
    have hlen' : (swapList l (i + 1) j).length = n := by
      rw [length_swapList]
      exact hlen
    obtain ⟨s1, s2, s3, s4, s5⟩ := ih hlen' (by omega)
    rw [dedupLoop]
    simp only [dif_pos hj, if_pos hlt, if_neg hne]
    refine ⟨s1, s2.trans (swapList_perm l hij' hjl), ?_, ?_, ?_⟩
    · simp only [List.foldl_cons]
      exact s3
    · intro p hp
      rcases List.mem_cons.1 hp with hpe | hpe
      · subst hpe
        exact ⟨hij', hj⟩
      · exact s4 p hpe
    · intro q hq
      rcases List.mem_cons.1 hq with hqe | hqe
      · subst hqe
        exact ⟨hij, hj⟩
      · exact s5 q hqe
  | case3 l i j hj hlt ih =>
    intro hlen hij
    obtain ⟨s1, s2, s3, s4, s5⟩ := ih hlen (by omega)
    rw [dedupLoop]
    simp only [dif_pos hj, if_neg hlt]
    refine ⟨s1, s2, s3, s4, ?_⟩
    intro q hq
    rcases List.mem_cons.1 hq with hqe | hqe
    · subst hqe
      exact ⟨hij, hj⟩
    · exact s5 q hqe
  | case4 l i j hj =>
    intro hlen hij
    rw [dedupLoop]
    simp only [dif_neg hj]
    exact ⟨hlen, List.Perm.refl l, by simp, by simp, by simp⟩

/-- Basic facts about `SortUnique` at the top level: the final collection is
a permutation of the input, the dedup scan applies exactly its recorded
swaps to the sorted collection, and all dedup-scan calls are in bounds and
strictly increasing. -/
theorem SortUnique_basic (lt : α → α → Bool) (l : List α) :
    (SortUnique lt l).2.coll.Perm l ∧
    (SortUnique lt l).2.coll = (SortUnique lt l).2.swaps.foldl
      (fun m p => swapList m p.1 p.2) (sortModel lt l) ∧
    (∀ p ∈ (SortUnique lt l).2.swaps, p.1 < p.2 ∧ p.2 < l.length) ∧
    (∀ q ∈ (SortUnique lt l).2.queries, q.1 < q.2 ∧ q.2 < l.length) := by
  by_cases h : l.length = 0
  · have hnil : l = [] := List.eq_nil_of_length_eq_zero h
    subst hnil
    simp only [SortUnique]
    refine ⟨List.Perm.refl _, ?_, by simp, by simp⟩
    simp [sortModel, List.insertionSort]
  · obtain ⟨s1, s2, s3, s4, s5⟩ := dedupLoop_basic lt (sortModel lt l).length
      (sortModel lt l) 0 1 rfl (by omega)
    have hperm := perm_sortModel lt l
    have hlen := length_sortModel lt l
    simp only [SortUnique, if_neg h]
    refine ⟨s2.trans hperm, s3, ?_, ?_⟩
    · intro p hp
      obtain ⟨w1, w2⟩ := s4 p hp
      exact ⟨w1, by omega⟩
    · intro q hq
      obtain ⟨w1, w2⟩ := s5 q hq
      exact ⟨w1, by omega⟩

/-- C7: each iteration of the partition scan strictly decreases the length
`n - j` of the unscanned suffix and the scan halts when a cursor reaches
`n`: running the loop with any fuel exceeding `n - j` suffices, so
`Partition`'s loop is total. -/
theorem partLoop_terminates (keep : α → Bool) (n : Nat) (fuel : Nat)
    (l : List α) (i j : Nat) (h : n - j < fuel) :
    partLoopFuel keep n fuel l i j = some (partLoop keep n l i j) :=
  partLoopFuel_eq_aux keep n fuel l i j h

theorem partLoop_terminates_witness :
    partLoopFuel (fun b : Bool => b) 2 2 [false, true] 0 1 =
      some (partLoop (fun b : Bool => b) 2 [false, true] 0 1) :=
  partLoop_terminates (fun b : Bool => b) 2 2 [false, true] 0 1 (by decide)

/-- C8: the collection after `Partition` is a permutation of the input, the
only mutations being the recorded position swaps; likewise the collection
after `SortUnique` is a permutation of the input. -/
theorem Partition_preserves_elements (keep : α → Bool) (lt : α → α → Bool)
    (l : List α) :
    (Partition keep l).coll.Perm l ∧
    (Partition keep l).coll =
      (Partition keep l).swaps.foldl (fun m p => swapList m p.1 p.2) l ∧
    (SortUnique lt l).2.coll.Perm l := by
  obtain ⟨_, _, h3, _, _, _, _, _, _, h10⟩ := Partition_spec keep l
  exact ⟨h3, h10, (SortUnique_basic lt l).1⟩

/-- C9: every index passed by `Partition` to `keep` or `Swap`, and every
index pair passed by the dedup scan of `SortUnique` to `Less` or `Swap`,
lies in `[0, n)`. -/
theorem calls_in_bounds (keep : α → Bool) (lt : α → α → Bool) (l : List α) :
    (∀ q ∈ (Partition keep l).queries, q < l.length) ∧
    (∀ p ∈ (Partition keep l).swaps, p.1 < l.length ∧ p.2 < l.length) ∧
    (∀ q ∈ (SortUnique lt l).2.queries, q.1 < l.length ∧ q.2 < l.length) ∧
    (∀ p ∈ (SortUnique lt l).2.swaps, p.1 < l.length ∧ p.2 < l.length) := by
  obtain ⟨_, _, _, _, _, _, _, h8, h9, _⟩ := Partition_spec keep l
  obtain ⟨_, _, hs, hq⟩ := SortUnique_basic lt l
  refine ⟨h9, ?_, ?_, ?_⟩
  · intro p hp
    obtain ⟨w1, w2⟩ := h8 p hp
    exact ⟨by omega, w2⟩
  · intro q hqm
    obtain ⟨w1, w2⟩ := hq q hqm
    exact ⟨by omega, w2⟩
  · intro p hp
    obtain ⟨w1, w2⟩ := hs p hp
    exact ⟨by omega, w2⟩

theorem calls_in_bounds_witness :
    (1 : Nat) < [2, 1, 1].length ∧
    ((0 : Nat) < [2, 1, 1].length ∧ (1 : Nat) < [2, 1, 1].length) ∧
    ((0 : Nat) < [2, 1, 1].length ∧ (1 : Nat) < [2, 1, 1].length) ∧
    ((1 : Nat) < [2, 1, 1].length ∧ (2 : Nat) < [2, 1, 1].length) := by
  have hP : Partition (fun x : Nat => decide (x ≤ 1)) [2, 1, 1] =
      { split := 2, coll := [1, 1, 2], swaps := [(0, 1), (1, 2)],
        queries := [0, 1, 2] } :=
    Partition_eval (fun x : Nat => decide (x ≤ 1)) [2, 1, 1] (0, [0])
      { split := 2, coll := [1, 1, 2], swaps := [(0, 1), (1, 2)],
        queries := [1, 2] } rfl rfl
  have hSU : SortUnique (fun a b : Nat => decide (a < b)) [2, 1, 1] =
      (2, { split := 1, coll := [1, 2, 1], swaps := [(1, 2)],
            queries := [(0, 1), (0, 2)] }) :=
    SortUnique_eval (fun a b : Nat => decide (a < b)) [2, 1, 1]
      { split := 1, coll := [1, 2, 1], swaps := [(1, 2)],
        queries := [(0, 1), (0, 2)] } (by decide) rfl
  obtain ⟨h1, h2, h3, h4⟩ := calls_in_bounds (fun x : Nat => decide (x ≤ 1))
    (fun a b : Nat => decide (a < b)) [2, 1, 1]
  exact ⟨h1 1 (by rw [hP]; decide), h2 (0, 1) (by rw [hP]; decide),
    h3 (0, 1) (by rw [hSU]; decide), h4 (1, 2) (by rw [hSU]; decide)⟩

/-- C10: every `Swap(a, b)` issued by `Partition` or by the dedup scan of
`SortUnique` satisfies `a < b`; in particular no degenerate self-swap is
ever requested. -/
theorem swap_calls_increasing (keep : α → Bool) (lt : α → α → Bool)
    (l : List α) :
    (∀ p ∈ (Partition keep l).swaps, p.1 < p.2) ∧
    (∀ p ∈ (SortUnique lt l).2.swaps, p.1 < p.2) := by
  obtain ⟨_, _, _, _, _, _, _, h8, _, _⟩ := Partition_spec keep l
  obtain ⟨_, _, hs, _⟩ := SortUnique_basic lt l
  exact ⟨fun p hp => (h8 p hp).1, fun p hp => (hs p hp).1⟩

theorem swap_calls_increasing_witness : (0 : Nat) < 1 ∧ (1 : Nat) < 2 := by
  have hP2 : Partition (fun x : Nat => decide (2 ≤ x)) [1, 2, 1] =
      { split := 1, coll := [2, 1, 1], swaps := [(0, 1)],
        queries := [0, 1, 2] } :=
    Partition_eval (fun x : Nat => decide (2 ≤ x)) [1, 2, 1] (0, [0])
      { split := 1, coll := [2, 1, 1], swaps := [(0, 1)], queries := [1, 2] }
      rfl rfl
  have hSU : SortUnique (fun a b : Nat => decide (a < b)) [3, 1, 1] =
      (2, { split := 1, coll := [1, 3, 1], swaps := [(1, 2)],
            queries := [(0, 1), (0, 2)] }) :=
    SortUnique_eval (fun a b : Nat => decide (a < b)) [3, 1, 1]
      { split := 1, coll := [1, 3, 1], swaps := [(1, 2)],
        queries := [(0, 1), (0, 2)] } (by decide) rfl
  obtain ⟨g1, _⟩ := swap_calls_increasing (fun x : Nat => decide (2 ≤ x))
    (fun a b : Nat => decide (a < b)) [1, 2, 1]
  obtain ⟨_, g2⟩ := swap_calls_increasing (fun x : Nat => decide (x ≤ 1))
    (fun a b : Nat => decide (a < b)) [3, 1, 1]
  exact ⟨g1 (0, 1) (by rw [hP2]; decide), g2 (1, 2) (by rw [hSU]; decide)⟩

/-! ### Strict weak orders and the reference distinct count -/

theorem swo_asym (lt : α → α → Bool) (hirr : ∀ a, lt a a = false)
    (htr : ∀ a b c, lt a b = true → lt b c = true → lt a c = true)
    {a b : α} (h : lt a b = true) : lt b a = false := by
  cases hba : lt b a
  · rfl
  · have hcon := htr a b a h hba
    rw [hirr a] at hcon
    cases hcon

theorem swo_weak (lt : α → α → Bool) (hirr : ∀ a, lt a a = false)
    (htr : ∀ a b c, lt a b = true → lt b c = true → lt a c = true)
    (hinc : ∀ a b c, lt a b = false → lt b a = false → lt b c = false →
      lt c b = false → lt a c = false ∧ lt c a = false)
    {a b c : α} (h : lt a c = true) : lt a b = true ∨ lt b c = true := by
  cases hab : lt a b
  · cases hbc : lt b c
    · exfalso
      cases hba : lt b a
      · cases hcb : lt c b
        · obtain ⟨h1, _⟩ := hinc a b c hab hba hbc hcb
          rw [h1] at h
          cases h
        · have hcon := htr a c b h hcb
          rw [hab] at hcon
          cases hcon
      · have hcon := htr b a c hba h
        rw [hbc] at hcon
        cases hcon
    · exact Or.inr rfl
  · exact Or.inl rfl

theorem eqv_refl (lt : α → α → Bool) (hirr : ∀ a, lt a a = false) (a : α) :
    eqv lt a a :=
  ⟨hirr a, hirr a⟩

theorem eqv_symm (lt : α → α → Bool) {a b : α} (h : eqv lt a b) : eqv lt b a :=
  ⟨h.2, h.1⟩

theorem eqv_trans (lt : α → α → Bool)
    (hinc : ∀ a b c, lt a b = false → lt b a = false → lt b c = false →
      lt c b = false → lt a c = false ∧ lt c a = false)
    {a b c : α} (h1 : eqv lt a b) (h2 : eqv lt b c) : eqv lt a c :=
  hinc a b c h1.1 h1.2 h2.1 h2.2

theorem mem_take_of_getElem? {l : List α} {m k : Nat} {x : α} (hk : k < m)
    (hx : l[k]? = some x) : x ∈ l.take m := by
  rw [List.mem_take_iff_getElem]
  obtain ⟨hlen, rfl⟩ := List.getElem?_eq_some.1 hx
  exact ⟨k, by omega, rfl⟩

theorem mem_take_mono {l : List α} {k m : Nat} (hkm : k ≤ m) {x : α}
    (hx : x ∈ l.take k) : x ∈ l.take m := by
  rw [List.mem_take_iff_getElem] at hx ⊢
  obtain ⟨idx, hidx, hval⟩ := hx
  exact ⟨idx, by omega, hval⟩

theorem getElem?_of_mem_take {l : List α} {m : Nat} {x : α}
    (hx : x ∈ l.take m) : ∃ k, k < m ∧ l[k]? = some x := by
  rw [List.mem_take_iff_getElem] at hx
  obtain ⟨k, hk, hval⟩ := hx
  refine ⟨k, by omega, ?_⟩
  rw [List.getElem?_eq_getElem (by omega)]
  exact congrArg some hval

theorem take_congr_getElem? (l₁ l₂ : List α) (m : Nat)
    (h : ∀ k, k < m → l₁[k]? = l₂[k]?) : l₁.take m = l₂.take m := by
  apply List.ext_getElem?
  intro k
  rw [List.getElem?_take, List.getElem?_take]
  by_cases hk : k < m
  · simp only [if_pos hk]
    exact h k hk
  · simp only [if_neg hk]

/-- Two lists that each contain no two equivalent elements, and whose
elements represent exactly the same equivalence classes, have the same
length. -/
theorem transversal_length_eq (e : α → α → Prop)
    (hsym : ∀ a b, e a b → e b a)
    (htrans : ∀ a b c, e a b → e b c → e a c) :
    ∀ (P Q : List α),
      P.Pairwise (fun a b => ¬ e a b) → Q.Pairwise (fun a b => ¬ e a b) →
      (∀ a ∈ P, ∃ b ∈ Q, e a b) → (∀ b ∈ Q, ∃ a ∈ P, e a b) →
      P.length = Q.length := by
  intro P
  induction P with
  | nil =>
    intro Q _ _ _ hQP
    cases Q with
    | nil => rfl
    | cons q Q2 =>
      obtain ⟨a, ha, _⟩ := hQP q (List.mem_cons_self q Q2)
      exact absurd ha (List.not_mem_nil a)
  | cons p P2 ih =>
    intro Q hP hQ hPQ hQP
    obtain ⟨q, hqQ, hpq⟩ := hPQ p (List.mem_cons_self p P2)
    obtain ⟨Q1, Q2, rfl⟩ := List.append_of_mem hqQ
    have hP2 : P2.Pairwise (fun a b => ¬ e a b) := (List.pairwise_cons.1 hP).2
    have hpP2 : ∀ x ∈ P2, ¬ e p x := (List.pairwise_cons.1 hP).1
    have hQ12 : (Q1 ++ Q2).Pairwise (fun a b => ¬ e a b) :=
      List.Pairwise.sublist ((List.sublist_cons_self q Q2).append_left Q1) hQ
    have hqb : ∀ b ∈ Q1 ++ Q2, ¬ e q b := by
      intro b hb
      rcases List.mem_append.1 hb with h1 | h2
      · obtain ⟨_, _, hcross⟩ := List.pairwise_append.1 hQ
        intro hqb2
        exact hcross b h1 q (List.mem_cons_self q Q2) (hsym q b hqb2)
      · obtain ⟨_, hq2, _⟩ := List.pairwise_append.1 hQ
        exact (List.pairwise_cons.1 hq2).1 b h2
    have c1 : ∀ a ∈ P2, ∃ b ∈ Q1 ++ Q2, e a b := by
      intro a haP2
      obtain ⟨b, hbQ, hab⟩ := hPQ a (List.mem_cons_of_mem p haP2)
      rcases List.mem_append.1 hbQ with h1 | h2
      · exact ⟨b, List.mem_append.2 (Or.inl h1), hab⟩
      · rcases List.mem_cons.1 h2 with rfl | h3
        · exfalso
          have hpa : e p a := htrans p b a hpq (hsym a b hab)
          exact hpP2 a haP2 hpa
        · exact ⟨b, List.mem_append.2 (Or.inr h3), hab⟩
    have c2 : ∀ b ∈ Q1 ++ Q2, ∃ a ∈ P2, e a b := by
      intro b hbQ12
      have hbQ : b ∈ Q1 ++ q :: Q2 := by
        rcases List.mem_append.1 hbQ12 with h1 | h2
        · exact List.mem_append.2 (Or.inl h1)
        · exact List.mem_append.2 (Or.inr (List.mem_cons_of_mem q h2))
      obtain ⟨a, haP, hab⟩ := hQP b hbQ
      rcases List.mem_cons.1 haP with rfl | h3
      · exfalso
        exact hqb b hbQ12 (htrans q a b (hsym a q hpq) hab)
      · exact ⟨a, h3, hab⟩
    have hlen := ih (Q1 ++ Q2) hP2 hQ12 c1 c2
    simp only [List.length_cons, List.length_append] at hlen ⊢
    omega

theorem any_eqvB_iff (lt : α → α → Bool) (a : α) (reps : List α) :
    (reps.any (fun b => !lt a b && !lt b a) = true) ↔ ∃ b ∈ reps, eqv lt a b := by
  rw [List.any_eq_true]
  constructor
  · rintro ⟨b, hb, hab⟩
    rw [Bool.and_eq_true, Bool.not_eq_true', Bool.not_eq_true'] at hab
    exact ⟨b, hb, hab.1, hab.2⟩
  · rintro ⟨b, hb, h1, h2⟩
    refine ⟨b, hb, ?_⟩
    rw [Bool.and_eq_true, Bool.not_eq_true', Bool.not_eq_true']
    exact ⟨h1, h2⟩

theorem foldl_addRep_acc_subset (lt : α → α → Bool) :
    ∀ (l acc : List α), acc ⊆ l.foldl (addRep lt) acc := by
  intro l
  induction l with
  | nil =>
    intro acc
    exact fun y hy => hy
  | cons x l ih =>
    intro acc
    simp only [List.foldl_cons]
    refine List.Subset.trans ?_ (ih (addRep lt acc x))
    unfold addRep
    split
    · exact fun y hy => hy
    · exact fun y hy => List.mem_cons_of_mem x hy

theorem foldl_addRep_mem (lt : α → α → Bool) :
    ∀ (l acc : List α) (b : α), b ∈ l.foldl (addRep lt) acc →
      b ∈ acc ∨ b ∈ l := by
  intro l
  induction l with
  | nil =>
    intro acc b hb
    exact Or.inl hb
  | cons x l ih =>
    intro acc b hb
    simp only [List.foldl_cons] at hb
    rcases ih (addRep lt acc x) b hb with h | h
    · unfold addRep at h
      split at h
      · exact Or.inl h
      · rcases List.mem_cons.1 h with rfl | h2
        · exact Or.inr (List.mem_cons_self b l)
        · exact Or.inl h2
    · exact Or.inr (List.mem_cons_of_mem x h)

theorem foldl_addRep_covers (lt : α → α → Bool) (hirr : ∀ a, lt a a = false) :
    ∀ (l acc : List α) (a : α), a ∈ l →
      ∃ b ∈ l.foldl (addRep lt) acc, eqv lt a b := by
  intro l
  induction l with
  | nil =>
    intro acc a ha
    exact absurd ha (List.not_mem_nil a)
  | cons x l ih =>
    intro acc a ha
    simp only [List.foldl_cons]
    rcases List.mem_cons.1 ha with rfl | h2
    · by_cases hany : acc.any (fun b => !lt a b && !lt b a) = true
      · obtain ⟨b, hb, heq⟩ := (any_eqvB_iff lt a acc).1 hany
        refine ⟨b, ?_, heq⟩
        apply foldl_addRep_acc_subset
        unfold addRep
        rw [if_pos hany]
        exact hb
      · refine ⟨a, ?_, eqv_refl lt hirr a⟩
        apply foldl_addRep_acc_subset
        unfold addRep
        rw [if_neg hany]
        exact List.mem_cons_self a acc
    · exact ih (addRep lt acc x) a h2

theorem foldl_addRep_pairwise (lt : α → α → Bool) :
    ∀ (l acc : List α), acc.Pairwise (fun a b => ¬ eqv lt a b) →
      (l.foldl (addRep lt) acc).Pairwise (fun a b => ¬ eqv lt a b) := by
  intro l
  induction l with
  | nil =>
    intro acc h
    exact h
  | cons x l ih =>
    intro acc hacc
    simp only [List.foldl_cons]
    apply ih
    by_cases hany : acc.any (fun b => !lt x b && !lt b x) = true
    · unfold addRep
      rw [if_pos hany]
      exact hacc
    · unfold addRep
      rw [if_neg hany]
      rw [List.pairwise_cons]
      refine ⟨?_, hacc⟩
      intro b hb heq
      apply hany
      exact (any_eqvB_iff lt x acc).2 ⟨b, hb, heq⟩

theorem repList_subset (lt : α → α → Bool) (l : List α) :
    ∀ b ∈ repList lt l, b ∈ l := by
  intro b hb
  rcases foldl_addRep_mem lt l [] b hb with h | h
  · exact absurd h (List.not_mem_nil b)
  · exact h

theorem repList_covers (lt : α → α → Bool) (hirr : ∀ a, lt a a = false)
    (l : List α) : ∀ a ∈ l, ∃ b ∈ repList lt l, eqv lt a b :=
  fun a ha => foldl_addRep_covers lt hirr l [] a ha

theorem repList_pairwise (lt : α → α → Bool) (l : List α) :
    (repList lt l).Pairwise (fun a b => ¬ eqv lt a b) :=
  foldl_addRep_pairwise lt l [] List.Pairwise.nil

/-- Main loop invariant of the dedup scan of `SortUnique`, over a sorted
list `s` (the state after the sort).  Starting from a state in which the
prefix `[0, i]` is strictly increasing, `l[i]` is equivalent to `s[j-1]`,
positions `[j, n)` still hold the sorted tail, and every value of `s.take j`
is represented in `l.take (i+1)`, the scan ends with a strictly increasing
prefix `[0, split]` representing every value of `s`. -/
theorem dedupLoop_spec (lt : α → α → Bool) (s : List α) (n : Nat)
    (hn : s.length = n)
    (hirr : ∀ a, lt a a = false)
    (htr : ∀ a b c, lt a b = true → lt b c = true → lt a c = true)
    (hinc : ∀ a b c, lt a b = false → lt b a = false → lt b c = false →
      lt c b = false → lt a c = false ∧ lt c a = false)
    (hsorted : ∀ (p q : Nat) (a b : α), p < q → s[p]? = some a →
      s[q]? = some b → lt b a = false) :
    ∀ (l : List α) (i j : Nat),
      l.length = n → i < j → j ≤ n →
      (∀ k, j ≤ k → k < n → l[k]? = s[k]?) →
      (∀ k a b, k + 1 ≤ i → l[k]? = some a → l[k + 1]? = some b →
        lt a b = true) →
      (∀ a b, l[i]? = some a → s[j - 1]? = some b → eqv lt a b) →
      (∀ a ∈ s.take j, ∃ b ∈ l.take (i + 1), eqv lt a b) →
      l.Perm s →
      i ≤ (dedupLoop lt n l i j).split ∧
      (dedupLoop lt n l i j).split < n ∧
      (dedupLoop lt n l i j).coll.length = n ∧
      (dedupLoop lt n l i j).coll.Perm s ∧
      (∀ k a b, k + 1 ≤ (dedupLoop lt n l i j).split →
        (dedupLoop lt n l i j).coll[k]? = some a →
        (dedupLoop lt n l i j).coll[k + 1]? = some b → lt a b = true) ∧
      (∀ a ∈ s, ∃ b ∈ (dedupLoop lt n l i j).coll.take
        ((dedupLoop lt n l i j).split + 1), eqv lt a b) := by
  intro l i j
  induction l, i, j using dedupLoop.induct lt n with
  | case1 l i hj hlt ih =>
    intro hlen hij hjn htail hadj heqv hcover hperm
    have hiln : i < l.length := by omega
    have hi1ln : i + 1 < l.length := by omega
    obtain ⟨a, ha⟩ : ∃ x, l[i]? = some x := ⟨_, List.getElem?_eq_getElem hiln⟩
    obtain ⟨c, hc⟩ : ∃ x, l[i + 1]? = some x :=
      ⟨_, List.getElem?_eq_getElem hi1ln⟩
    have hlt' := hlt
    rw [ltAt_eq lt l i (i + 1) a c ha hc] at hlt'
    have hcs : s[i + 1]? = some c := by
      rw [← htail (i + 1) (Nat.le_refl _) hj]
      exact hc
    have hadj' : ∀ k a' b', k + 1 ≤ i + 1 → l[k]? = some a' →
        l[k + 1]? = some b' → lt a' b' = true := by
      intro k a' b' hk h1 h2
      rcases Nat.lt_or_ge (k + 1) (i + 1) with hlt2 | hge
      · exact hadj k a' b' (by omega) h1 h2
      · have hki : k = i := by omega
        subst hki
        rw [ha] at h1
        rw [hc] at h2
        injection h1 with h1
        injection h2 with h2
        rw [← h1, ← h2]
        exact hlt'
    have heqv' : ∀ a' b', l[i + 1]? = some a' →
        s[i + 1 + 1 - 1]? = some b' → eqv lt a' b' := by
      intro a' b' h1 h2
      have h3 : i + 1 + 1 - 1 = i + 1 := by omega
      rw [h3] at h2
      rw [hc] at h1
      rw [hcs] at h2
      injection h1 with h1
      injection h2 with h2
      rw [← h1, ← h2]
      exact eqv_refl lt hirr c
    have hcover' : ∀ a' ∈ s.take (i + 1 + 1),
        ∃ b ∈ l.take (i + 1 + 1), eqv lt a' b := by
      intro a' ha'
      obtain ⟨idx, hidx, hval⟩ := getElem?_of_mem_take ha'
      rcases Nat.lt_or_ge idx (i + 1) with hlt2 | hge
      · obtain ⟨b, hb, hab⟩ := hcover a' (mem_take_of_getElem? hlt2 hval)
        exact ⟨b, mem_take_mono (by omega) hb, hab⟩
      · have hki : idx = i + 1 := by omega
        subst hki
        rw [hcs] at hval
        injection hval with hval
        refine ⟨c, mem_take_of_getElem? (by omega) hc, ?_⟩
        rw [← hval]
        exact eqv_refl lt hirr c
    obtain ⟨s1, s2, s3, s4, s5, s6⟩ := ih hlen (by omega) (by omega)
      (fun k hk1 hk2 => htail k (by omega) hk2) hadj' heqv' hcover' hperm
    rw [dedupLoop, dif_pos hj, if_pos hlt, if_pos (rfl : i + 1 = i + 1)]
    exact ⟨Nat.le_of_succ_le s1, s2, s3, s4, s5, s6⟩
  | case2 l i j hj hlt hne ih =>
    intro hlen hij hjn htail hadj heqv hcover hperm
    have hij' : i + 1 < j := by omega
    have hjln : j < l.length := by omega
    have hiln : i < l.length := by omega
    obtain ⟨a, ha⟩ : ∃ x, l[i]? = some x := ⟨_, List.getElem?_eq_getElem hiln⟩
    obtain ⟨c, hc⟩ : ∃ x, l[j]? = some x := ⟨_, List.getElem?_eq_getElem hjln⟩
    have hlt' := hlt
    rw [ltAt_eq lt l i j a c ha hc] at hlt'
    have hcs : s[j]? = some c := by
      rw [← htail j (Nat.le_refl _) hj]
      exact hc
    have hswl : ∀ k, k ≠ i + 1 → k ≠ j →
        (swapList l (i + 1) j)[k]? = l[k]? :=
      fun k h1 h2 => getElem?_swapList_other l h1 h2
    have hswleft : (swapList l (i + 1) j)[i + 1]? = l[j]? :=
      getElem?_swapList_left l hij' hjln
    have hswright : (swapList l (i + 1) j)[j]? = l[i + 1]? :=
      getElem?_swapList_right l hij' hjln
    have hlen' : (swapList l (i + 1) j).length = n := by
      rw [length_swapList]
      exact hlen
    have htail' : ∀ k, j + 1 ≤ k → k < n →
        (swapList l (i + 1) j)[k]? = s[k]? := by
      intro k hk1 hk2
      rw [hswl k (by omega) (by omega)]
      exact htail k (by omega) hk2
    have hadj' : ∀ k a' b', k + 1 ≤ i + 1 →
        (swapList l (i + 1) j)[k]? = some a' →
        (swapList l (i + 1) j)[k + 1]? = some b' → lt a' b' = true := by
      intro k a' b' hk h1 h2
      rcases Nat.lt_or_ge (k + 1) (i + 1) with hlt2 | hge
      · rw [hswl k (by omega) (by omega)] at h1
        rw [hswl (k + 1) (by omega) (by omega)] at h2
        exact hadj k a' b' (by omega) h1 h2
      · have hki : k = i := by omega
        subst hki
        rw [hswl k (by omega) (by omega), ha] at h1
        rw [hswleft, hc] at h2
        injection h1 with h1
        injection h2 with h2
        rw [← h1, ← h2]
        exact hlt'
    have heqv' : ∀ a' b', (swapList l (i + 1) j)[i + 1]? = some a' →
        s[j + 1 - 1]? = some b' → eqv lt a' b' := by
      intro a' b' h1 h2
      have h3 : j + 1 - 1 = j := by omega
      rw [h3] at h2
      rw [hswleft, hc] at h1
      rw [hcs] at h2
      injection h1 with h1
      injection h2 with h2
      rw [← h1, ← h2]
      exact eqv_refl lt hirr c
    have htake_eq : l.take (i + 1) = (swapList l (i + 1) j).take (i + 1) :=
      take_congr_getElem? l (swapList l (i + 1) j) (i + 1)
        (fun k hk => (hswl k (by omega) (by omega)).symm)
    have hcover' : ∀ a' ∈ s.take (j + 1),
        ∃ b ∈ (swapList l (i + 1) j).take (i + 1 + 1), eqv lt a' b := by
      intro a' ha'
      obtain ⟨idx, hidx, hval⟩ := getElem?_of_mem_take ha'
      rcases Nat.lt_or_ge idx j with hlt2 | hge
      · obtain ⟨b, hb, hab⟩ := hcover a' (mem_take_of_getElem? hlt2 hval)
        rw [htake_eq] at hb
        exact ⟨b, mem_take_mono (by omega) hb, hab⟩
      · have hki : idx = j := by omega
        subst hki
        rw [hcs] at hval
        injection hval with hval
        refine ⟨c, ?_, ?_⟩
        · apply mem_take_of_getElem? (show i + 1 < i + 1 + 1 by omega)
          rw [hswleft]
          exact hc
        · rw [← hval]
          exact eqv_refl lt hirr c
    have hperm' : (swapList l (i + 1) j).Perm s :=
      (swapList_perm l hij' hjln).trans hperm
    obtain ⟨s1, s2, s3, s4, s5, s6⟩ := ih hlen' (by omega) (by omega)
      htail' hadj' heqv' hcover' hperm'
    rw [dedupLoop]
    simp only [dif_pos hj, if_pos hlt, if_neg hne]
    exact ⟨Nat.le_of_succ_le s1, s2, s3, s4, s5, s6⟩
  | case3 l i j hj hlt ih =>
    intro hlen hij hjn htail hadj heqv hcover hperm
    have hiln : i < l.length := by omega
    have hjln : j < l.length := by omega
    obtain ⟨a, ha⟩ : ∃ x, l[i]? = some x := ⟨_, List.getElem?_eq_getElem hiln⟩
    obtain ⟨c, hc⟩ : ∃ x, l[j]? = some x := ⟨_, List.getElem?_eq_getElem hjln⟩
    have hcs : s[j]? = some c := by
      rw [← htail j (Nat.le_refl _) hj]
      exact hc
    have hac : lt a c = false := by
      cases hx : lt a c
      · rfl
      · exfalso
        apply hlt
        rw [ltAt_eq lt l i j a c ha hc]
        exact hx
    obtain ⟨b, hbs⟩ : ∃ x, s[j - 1]? = some x :=
      ⟨_, List.getElem?_eq_getElem (by omega)⟩
    have hab : eqv lt a b := heqv a b ha hbs
    have hcb : lt c b = false :=
      hsorted (j - 1) j b c (by omega) hbs hcs
    have hca : lt c a = false := by
      cases hx : lt c a
      · rfl
      · exfalso
        rcases swo_weak lt hirr htr hinc hx with h1 | h2
        · rw [hcb] at h1
          cases h1
        · rw [hab.2] at h2
          cases h2
    have heqv' : ∀ a' b', l[i]? = some a' → s[j + 1 - 1]? = some b' →
        eqv lt a' b' := by
      intro a' b' h1 h2
      have h3 : j + 1 - 1 = j := by omega
      rw [h3] at h2
      rw [ha] at h1
      rw [hcs] at h2
      injection h1 with h1
      injection h2 with h2
      rw [← h1, ← h2]
      exact ⟨hac, hca⟩
    have hcover' : ∀ a' ∈ s.take (j + 1),
        ∃ b' ∈ l.take (i + 1), eqv lt a' b' := by
      intro a' ha'
      obtain ⟨idx, hidx, hval⟩ := getElem?_of_mem_take ha'
      rcases Nat.lt_or_ge idx j with hlt2 | hge
      · exact hcover a' (mem_take_of_getElem? hlt2 hval)
      · have hki : idx = j := by omega
        subst hki
        rw [hcs] at hval
        injection hval with hval
        refine ⟨a, mem_take_of_getElem? (by omega) ha, ?_⟩
        rw [← hval]
        exact ⟨hca, hac⟩
    obtain ⟨s1, s2, s3, s4, s5, s6⟩ := ih hlen (by omega) (by omega)
      (fun k hk1 hk2 => htail k (by omega) hk2) hadj heqv' hcover' hperm
    rw [dedupLoop]
    simp only [dif_pos hj, if_neg hlt]
    exact ⟨s1, s2, s3, s4, s5, s6⟩
  | case4 l i j hj =>
    intro hlen hij hjn htail hadj heqv hcover hperm
    have hjn' : j = n := by omega
    rw [dedupLoop]
    simp only [dif_neg hj]
    refine ⟨Nat.le_refl i, by omega, hlen, hperm, hadj, ?_⟩
    intro a ha
    apply hcover
    have hsn : s.take j = s := by
      rw [hjn', ← hn]
      exact List.take_length s
    rw [hsn]
    exact ha

/-- A prefix whose adjacent pairs are strictly increasing is pairwise
strictly increasing, by transitivity. -/
theorem pairwise_lt_take_of_adjacent (lt : α → α → Bool)
    (htr : ∀ a b c, lt a b = true → lt b c = true → lt a c = true)
    (coll : List α) (m : Nat) (hm : m ≤ coll.length)
    (hadj : ∀ k a b, k + 1 < m → coll[k]? = some a → coll[k + 1]? = some b →
      lt a b = true) :
    (coll.take m).Pairwise (fun a b => lt a b = true) := by
  have hchain : ∀ (d p : Nat), p + d + 1 < m → ∀ a b, coll[p]? = some a →
      coll[p + d + 1]? = some b → lt a b = true := by
    intro d
    induction d with
    | zero =>
      intro p hp a b h1 h2
      exact hadj p a b (by omega) h1 h2
    | succ d ih =>
      intro p hp a b h1 h2
      have hmid : p + d + 1 < coll.length := by omega
      obtain ⟨c, hc⟩ : ∃ x, coll[p + d + 1]? = some x :=
        ⟨_, List.getElem?_eq_getElem hmid⟩
      have step1 := ih p (by omega) a c h1 hc
      have hidx : p + (d + 1) + 1 = (p + d + 1) + 1 := by omega
      rw [hidx] at h2
      have step2 := hadj (p + d + 1) c b (by omega) hc h2
      exact htr a c b step1 step2
  rw [List.pairwise_iff_getElem]
  intro p q hp hq hpq
  have hp2 : p < m ⊓ coll.length := by
    have := hp
    rw [List.length_take] at this
    exact this
  have hq2 : q < m ⊓ coll.length := by
    have := hq
    rw [List.length_take] at this
    exact this
  have e1 : (coll.take m)[p]? = coll[p]? := by
    rw [List.getElem?_take]
    exact if_pos (by omega)
  have e2 : (coll.take m)[q]? = coll[q]? := by
    rw [List.getElem?_take]
    exact if_pos (by omega)
  have f1 : coll[p]? = some (coll.take m)[p] := by
    rw [← e1]
    exact List.getElem?_eq_getElem hp
  have f2 : coll[q]? = some (coll.take m)[q] := by
    rw [← e2]
    exact List.getElem?_eq_getElem hq
  have hq_eq : p + (q - p - 1) + 1 = q := by omega
  refine hchain (q - p - 1) p (by omega) _ _ f1 ?_
  rw [hq_eq]
  exact f2

/-- C3: with a strict weak order `lt` (irreflexive, transitive, with
transitive incomparability), `SortUnique` returns the number of distinct
values of the input; the output prefix `[0, k)` is strictly increasing,
contains no two equivalent values, represents every input value, and draws
its values from the input; an empty collection yields `0` with the
collection untouched. -/
theorem SortUnique_correct (lt : α → α → Bool) (l : List α)
    (hirr : ∀ a, lt a a = false)
    (htr : ∀ a b c, lt a b = true → lt b c = true → lt a c = true)
    (hinc : ∀ a b c, lt a b = false → lt b a = false → lt b c = false →
      lt c b = false → lt a c = false ∧ lt c a = false) :
    (SortUnique lt l).1 = distinctCount lt l ∧
    ((SortUnique lt l).2.coll.take (SortUnique lt l).1).Pairwise
      (fun a b => lt a b = true) ∧
    ((SortUnique lt l).2.coll.take (SortUnique lt l).1).Pairwise
      (fun a b => ¬ eqv lt a b) ∧
    (∀ a ∈ l, ∃ b ∈ (SortUnique lt l).2.coll.take (SortUnique lt l).1,
      eqv lt a b) ∧
    (∀ b ∈ (SortUnique lt l).2.coll.take (SortUnique lt l).1, b ∈ l) ∧
    (l = [] → (SortUnique lt l).1 = 0 ∧ (SortUnique lt l).2.coll = l) := by
  by_cases hemp : l.length = 0
  · have hnil : l = [] := List.eq_nil_of_length_eq_zero hemp
    subst hnil
    refine ⟨rfl, ?_, ?_, ?_, ?_, fun _ => ⟨rfl, rfl⟩⟩
    · simp [SortUnique]
    · simp [SortUnique]
    · intro a ha
      exact absurd ha (List.not_mem_nil a)
    · intro b hb
      simp [SortUnique] at hb
  · have hslen : (sortModel lt l).length = l.length := length_sortModel lt l
    have hsperm : (sortModel lt l).Perm l := perm_sortModel lt l
    have hsorted_pw : (sortModel lt l).Pairwise (fun a b => lt b a = false) := by
      unfold sortModel
      haveI : IsTotal α (fun a b => lt b a = false) := by
        refine ⟨fun a b => ?_⟩
        cases h : lt b a
        · exact Or.inl rfl
        · exact Or.inr (swo_asym lt hirr htr h)
      haveI : IsTrans α (fun a b => lt b a = false) := by
        refine ⟨fun a b c h1 h2 => ?_⟩
        cases hx : lt c a
        · rfl
        · exfalso
          rcases swo_weak lt hirr htr hinc hx with hy | hy
          · rw [h2] at hy
            cases hy
          · rw [h1] at hy
            cases hy
      exact List.sorted_insertionSort _ l
    have hsorted : ∀ (p q : Nat) (a b : α), p < q →
        (sortModel lt l)[p]? = some a → (sortModel lt l)[q]? = some b →
        lt b a = false := by
      intro p q a b hpq hp hq
      rw [List.pairwise_iff_getElem] at hsorted_pw
      obtain ⟨hpl, hav⟩ := List.getElem?_eq_some.1 hp
      obtain ⟨hql, hbv⟩ := List.getElem?_eq_some.1 hq
      have := hsorted_pw p q hpl hql hpq
      rw [hav, hbv] at this
      exact this
    have h1n : 1 ≤ (sortModel lt l).length := by omega
    have heqv0 : ∀ a b, (sortModel lt l)[0]? = some a →
        (sortModel lt l)[1 - 1]? = some b → eqv lt a b := by
      intro a b h1 h2
      rw [h1] at h2
      injection h2 with h2
      rw [← h2]
      exact eqv_refl lt hirr a
    have hcover0 : ∀ a ∈ (sortModel lt l).take 1,
        ∃ b ∈ (sortModel lt l).take (0 + 1), eqv lt a b :=
      fun a ha => ⟨a, ha, eqv_refl lt hirr a⟩
    obtain ⟨d1, d2, d3, d4, d5, d6⟩ := dedupLoop_spec lt (sortModel lt l)
      (sortModel lt l).length rfl hirr htr hinc hsorted (sortModel lt l) 0 1
      rfl (by omega) (by omega) (fun k _ _ => rfl)
      (fun k a b hk _ _ => absurd hk (by omega)) heqv0 hcover0
      (List.Perm.refl _)
    have hSU : SortUnique lt l =
        ((dedupLoop lt (sortModel lt l).length (sortModel lt l) 0 1).split + 1,
          dedupLoop lt (sortModel lt l).length (sortModel lt l) 0 1) := by
      simp only [SortUnique, if_neg hemp]
    rw [hSU]
    have hPpw : ((dedupLoop lt (sortModel lt l).length (sortModel lt l) 0
        1).coll.take ((dedupLoop lt (sortModel lt l).length (sortModel lt l) 0
        1).split + 1)).Pairwise (fun a b => lt a b = true) :=
      pairwise_lt_take_of_adjacent lt htr _ _ (by omega)
        (fun k a b hk h1 h2 => d5 k a b (by omega) h1 h2)
    have hPne : ((dedupLoop lt (sortModel lt l).length (sortModel lt l) 0
        1).coll.take ((dedupLoop lt (sortModel lt l).length (sortModel lt l) 0
        1).split + 1)).Pairwise (fun a b => ¬ eqv lt a b) := by
      refine hPpw.imp ?_
      intro a b hab heq
      rw [heq.1] at hab
      cases hab
    have hmemP : ∀ b ∈ (dedupLoop lt (sortModel lt l).length (sortModel lt l)
        0 1).coll.take ((dedupLoop lt (sortModel lt l).length (sortModel lt l)
        0 1).split + 1), b ∈ l := by
      intro b hb
      have hb2 := List.take_subset _ _ hb
      exact hsperm.mem_iff.1 (d4.mem_iff.1 hb2)
    have hcovP : ∀ a ∈ l, ∃ b ∈ (dedupLoop lt (sortModel lt l).length
        (sortModel lt l) 0 1).coll.take ((dedupLoop lt
        (sortModel lt l).length (sortModel lt l) 0 1).split + 1),
        eqv lt a b := by
      intro a ha
      exact d6 a (hsperm.mem_iff.2 ha)
    refine ⟨?_, hPpw, hPne, hcovP, hmemP, ?_⟩
    · have hlenP : ((dedupLoop lt (sortModel lt l).length (sortModel lt l) 0
          1).coll.take ((dedupLoop lt (sortModel lt l).length
          (sortModel lt l) 0 1).split + 1)).length =
          (dedupLoop lt (sortModel lt l).length (sortModel lt l) 0 1).split
            + 1 := by
        rw [List.length_take]
        omega
      have htrans := transversal_length_eq (eqv lt)
        (fun a b h => eqv_symm lt h)
        (fun a b c h1 h2 => eqv_trans lt hinc h1 h2)
        ((dedupLoop lt (sortModel lt l).length (sortModel lt l) 0
          1).coll.take ((dedupLoop lt (sortModel lt l).length
          (sortModel lt l) 0 1).split + 1))
        (repList lt l) hPne (repList_pairwise lt l)
        (fun a ha => repList_covers lt hirr l a (hmemP a ha))
        (fun b hb => by
          obtain ⟨a, haP, hba⟩ := hcovP b (repList_subset lt l b hb)
          exact ⟨a, haP, eqv_symm lt hba⟩)
      rw [hlenP] at htrans
      exact htrans
    · intro hl
      exfalso
      rw [hl] at hemp
      exact hemp rfl

theorem SortUnique_correct_witness :
    (SortUnique (fun a b : Nat => decide (a < b)) [2, 1, 2]).1 =
      distinctCount (fun a b : Nat => decide (a < b)) [2, 1, 2] := by
  refine (SortUnique_correct (fun a b : Nat => decide (a < b)) [2, 1, 2]
    ?_ ?_ ?_).1
  · intro a
    simp
  · intro a b c h1 h2
    simp only [decide_eq_true_eq] at h1 h2 ⊢
    omega
  · intro a b c h1 h2 h3 h4
    simp only [decide_eq_false_iff_not] at h1 h2 h3 h4 ⊢
    constructor <;> omega

end Indexed
